import Mathlib

/-
Verification of the frame-generation pipeline of auto_slideshow.py
(MushroomFleet/Auto-Slideshow).

Shallow embedding conventions:
* Python floats are modelled as rationals (ℚ); Python `int(x)` truncates
  toward zero and is modelled by `pyTrunc`.
* A video frame (an OpenCV image) is a list of rows of 3-channel pixels.
  All frames produced by cv2 are rectangular; rectangularity is carried
  as the predicate `WF` in the theorems.
* cv2.imread / cv2.VideoWriter are the external image source and frame
  sink; a slideshow input is a `List (Option Frame)` (`none` = the file
  cannot be decoded) and the sink is the list of emitted frames.  The
  sink is assumed to open successfully (a sink-open failure is fatal and
  outside every claim considered here).
* cv2.resize is an external library routine; it is modelled as
  nearest-neighbour sampling at the requested output size (`cvResize`).
  The claims depend only on its documented contract: the output has
  exactly the requested dimensions.
* numpy slice assignment `dst[a:b, c:d] = src` raises ValueError when the
  shapes differ; this is modelled by `Option` results (`none` = raised).
  Broadcasting of singleton dimensions is not modelled; no claim touches
  a frame with a singleton dimension on a mismatched assignment.
-/

namespace AutoSlideshow

/-! ### Pixels and frames -/

/-- One 3-channel pixel sample (cv2 images are 3-channel uint8). -/
abbrev Pix := ℕ × ℕ × ℕ

/-- A frame: a list of rows of pixels (`image.shape[:2] = (h, w)`). -/
abbrev Frame := List (List Pix)

/-- The width reported by `image.shape`: length of the first row. -/
def frameWidth (f : Frame) : ℕ := (f.headD []).length

/-- `WF f h w`: the frame is a rectangular `h × w` pixel grid. -/
def WF (f : Frame) (h w : ℕ) : Prop := f.length = h ∧ ∀ r ∈ f, r.length = w

instance (f : Frame) (h w : ℕ) : Decidable (WF f h w) := by
  unfold WF
  infer_instance

/-- Python `int(x)` on a float: truncation toward zero. -/
def pyTrunc (q : ℚ) : ℤ := if 0 ≤ q then ⌊q⌋ else -⌊-q⌋

theorem pyTrunc_of_nonneg {q : ℚ} (h : 0 ≤ q) : pyTrunc q = ⌊q⌋ := by
  simp [pyTrunc, h]

theorem pyTrunc_nonneg {q : ℚ} (h : 0 ≤ q) : 0 ≤ pyTrunc q := by
  rw [pyTrunc_of_nonneg h]
  exact Int.floor_nonneg.mpr h

/-! ### External cv2 primitives (modelled) -/

/-- cv2.resize, an external library routine, modelled as nearest-neighbour
sampling at the requested output size: exactly `h` rows of `w` samples.
The claims depend only on the output dimensions, not on the interpolation. -/
def cvResize (img : Frame) (w h : ℕ) : Frame :=
  (List.range h).map fun y =>
    (List.range w).map fun x =>
      (img.getD (y * img.length / h) []).getD (x * frameWidth img / w) (0, 0, 0)

/-- Rounding and uint8 saturation of one blended channel, as cv2.addWeighted
does (cv2 rounds half to even; the claims only touch weights 0 and 1, where
every rounding convention agrees, so round-half-up is used). -/
def satRound (q : ℚ) : ℕ := min 255 (Int.toNat ⌊q + 1/2⌋)

/-- Per-channel weighted blend of two pixels (`gamma = 0` in the source call). -/
def blendPix (a : Pix) (wa : ℚ) (b : Pix) (wb : ℚ) : Pix :=
  (satRound ((a.1 : ℚ) * wa + (b.1 : ℚ) * wb),
   satRound ((a.2.1 : ℚ) * wa + (b.2.1 : ℚ) * wb),
   satRound ((a.2.2 : ℚ) * wa + (b.2.2 : ℚ) * wb))

/-- cv2.addWeighted: raises (none) unless both inputs have the same size. -/
def addWeighted (a : Frame) (wa : ℚ) (b : Frame) (wb : ℚ) : Option Frame :=
  if a.length = b.length ∧ frameWidth a = frameWidth b then
    some (List.zipWith
      (fun ra rb => List.zipWith (fun x y => blendPix x wa y wb) ra rb) a b)
  else none

/-! ### Transition engine (apply_transition, lines 99-272)

Each numpy slice assignment `dst[...] = src[...]` compares the two slice
shapes and raises ValueError (modelled by `none`) on mismatch.  Shapes are
computed from `List.length` and `frameWidth`; cv2 frames are rectangular,
so jagged lists and numpy broadcasting of singleton dimensions are outside
the model. -/

/-- Wipe Left (transition_type 1): `result[:, :cut] = next[:, :cut]` on a
copy of `prev`, with `cut = int(w * progress)`. -/
def wipeLeft (prev next : Frame) (p : ℚ) : Option Frame :=
  let w := frameWidth prev
  let cut := Int.toNat (pyTrunc ((w : ℚ) * p))
  if prev.length = next.length ∧ min cut w = min cut (frameWidth next) then
    some (List.zipWith (fun pr nr => nr.take cut ++ pr.drop cut) prev next)
  else none

/-- Wipe Right (transition_type 2): `result[:, cut:] = next[:, cut:]` with
`cut = int(w * (1 - progress))`. -/
def wipeRight (prev next : Frame) (p : ℚ) : Option Frame :=
  let w := frameWidth prev
  let cut := Int.toNat (pyTrunc ((w : ℚ) * (1 - p)))
  if prev.length = next.length ∧
      w - min cut w = frameWidth next - min cut (frameWidth next) then
    some (List.zipWith (fun pr nr => pr.take cut ++ nr.drop cut) prev next)
  else none

/-- Wipe Up (transition_type 3): `result[:cut, :] = next[:cut, :]` with
`cut = int(h * progress)`. -/
def wipeUp (prev next : Frame) (p : ℚ) : Option Frame :=
  let h := prev.length
  let cut := Int.toNat (pyTrunc ((h : ℚ) * p))
  if min cut h = min cut next.length ∧ frameWidth prev = frameWidth next then
    some (next.take cut ++ prev.drop cut)
  else none

/-- Wipe Down (transition_type 4): `result[cut:, :] = next[cut:, :]` with
`cut = int(h * (1 - progress))`. -/
def wipeDown (prev next : Frame) (p : ℚ) : Option Frame :=
  let h := prev.length
  let cut := Int.toNat (pyTrunc ((h : ℚ) * (1 - p)))
  if h - min cut h = next.length - min cut next.length ∧
      frameWidth prev = frameWidth next then
    some (prev.take cut ++ next.drop cut)
  else none

/-- numpy `bg[sy:ey, sx:ex] = block` on a copy of `bg`: succeeds exactly
when the (clipped) target slice has the same shape as `block`. -/
def overwriteRegion (bg : Frame) (sy ey sx ex : ℕ) (block : Frame) : Option Frame :=
  let tgt := ((bg.take ey).drop sy).map fun r => (r.take ex).drop sx
  if block.length = tgt.length ∧ block.map List.length = tgt.map List.length then
    some (bg.take sy ++
      List.zipWith (fun r b => r.take sx ++ b ++ r.drop ex) ((bg.take ey).drop sy) block ++
      bg.drop ey)
  else none

/-- The shared placement block of both zoom transitions (lines 144 and
164-189 resp. 193 and 213-238): center the `scaled` frame over a copy of
`bg` using the canvas dimensions `h`, `w` read from `prev_frame`; a
ValueError in the placement is caught and falls back to the fade of
`fbA`/`fbB` (the original `prev_frame`/`next_frame`). -/
def zoomPlace (bg fbA fbB : Frame) (p : ℚ) (scaled : Frame) (h w sw sh : ℕ) :
    Option Frame :=
  let cx := w / 2
  let cy := h / 2
  let sx := cx - sw / 2
  let sy := cy - sh / 2
  let ex := min w (sx + sw)
  let ey := min h (sy + sh)
  let ssx := if sx = 0 then (sw - (ex - sx)) / 2 else 0
  let ssy := if sy = 0 then (sh - (ey - sy)) / 2 else 0
  let block := ((scaled.drop ssy).take (ey - sy)).map fun r => (r.drop ssx).take (ex - sx)
  match overwriteRegion bg sy ey sx ex block with
  | some res => some res
  | none => addWeighted fbA (1 - p) fbB p

/-- Zoom In (transition_type 5): `next` scaled to `zoom_factor` of the
canvas (at least 0.1, at least 10 px per side) and center-placed over a
copy of `prev`; a ValueError in the placement falls back to fade. -/
def zoomIn (prev next : Frame) (p : ℚ) : Option Frame :=
  let h := prev.length
  let w := frameWidth prev
  let zf : ℚ := if p < 1/10 then 1/10 else p
  let sw := max (Int.toNat (pyTrunc ((w : ℚ) * zf))) 10
  let sh := max (Int.toNat (pyTrunc ((h : ℚ) * zf))) 10
  zoomPlace prev prev next p (cvResize next sw sh) h w sw sh

/-- Zoom Out (transition_type 6): mirror of zoom in — `prev` scaled to
`1 - progress` of the canvas (dimensions read from `prev`), placed over a
copy of `next`; same fallback. -/
def zoomOut (prev next : Frame) (p : ℚ) : Option Frame :=
  let h := prev.length
  let w := frameWidth prev
  let zf : ℚ := if 1 - p < 1/10 then 1/10 else 1 - p
  let sw := max (Int.toNat (pyTrunc ((w : ℚ) * zf))) 10
  let sh := max (Int.toNat (pyTrunc ((h : ℚ) * zf))) 10
  zoomPlace next prev next p (cvResize prev sw sh) h w sw sh

/-- Slide Left (transition_type 7): `prev` shifted left by
`offset = int(w * progress)` over a zero canvas, the right edge filled
with the left `offset` columns of `next`. -/
def slideLeft (prev next : Frame) (p : ℚ) : Option Frame :=
  let h := prev.length
  let w := frameWidth prev
  let offset := Int.toNat (pyTrunc ((w : ℚ) * p))
  let base : Frame :=
    if offset < w then
      prev.map fun pr => pr.drop offset ++ List.replicate offset (0, 0, 0)
    else List.replicate h (List.replicate w (0, 0, 0))
  if 0 < offset then
    if h = next.length ∧ min offset (frameWidth next) = offset then
      some (List.zipWith (fun br nr => br.take (w - offset) ++ nr.take offset) base next)
    else none
  else some base

/-- Slide Right (transition_type 8): mirror of slide left. -/
def slideRight (prev next : Frame) (p : ℚ) : Option Frame :=
  let h := prev.length
  let w := frameWidth prev
  let offset := Int.toNat (pyTrunc ((w : ℚ) * p))
  let base : Frame :=
    if offset < w then
      prev.map fun pr => List.replicate offset (0, 0, 0) ++ pr.take (w - offset)
    else List.replicate h (List.replicate w (0, 0, 0))
  if 0 < offset then
    if h = next.length ∧
        frameWidth next - min (w - offset) (frameWidth next) = offset then
      some (List.zipWith (fun br nr => nr.drop (w - offset) ++ br.drop offset) base next)
    else none
  else some base

/-- apply_transition: dispatch on the transition type; any unrecognized
type falls back to fade. -/
def apply_transition (prev next : Frame) (ttype : ℕ) (p : ℚ) : Option Frame :=
  if ttype = 0 then addWeighted prev (1 - p) next p
  else if ttype = 1 then wipeLeft prev next p
  else if ttype = 2 then wipeRight prev next p
  else if ttype = 3 then wipeUp prev next p
  else if ttype = 4 then wipeDown prev next p
  else if ttype = 5 then zoomIn prev next p
  else if ttype = 6 then zoomOut prev next p
  else if ttype = 7 then slideLeft prev next p
  else if ttype = 8 then slideRight prev next p
  else addWeighted prev (1 - p) next p

/-! ### Image normalizer (resize_image, lines 73-97) -/

/-- resize_image: direct resize when the aspect ratio is within 1% of the
target, otherwise resize preserving aspect ratio and center-crop.  The
source divides by `h` and `height`; the theorems below assume positive
dimensions, exactly where the Python code runs without ZeroDivisionError. -/
def resize_image (image : Frame) (width height : ℕ) : Frame :=
  let h := image.length
  let w := frameWidth image
  let current_ratio : ℚ := (w : ℚ) / (h : ℚ)
  let target_ratio : ℚ := (width : ℚ) / (height : ℚ)
  if |current_ratio - target_ratio| < 1/100 then
    cvResize image width height
  else if target_ratio < current_ratio then
    let new_w := Int.toNat (pyTrunc ((height : ℚ) * current_ratio))
    let img_resized := cvResize image new_w height
    let start_x := (new_w - width) / 2
    img_resized.map fun r => (r.drop start_x).take width
  else
    let new_h := Int.toNat (pyTrunc ((width : ℚ) / current_ratio))
    let img_resized := cvResize image width new_h
    let start_y := (new_h - height) / 2
    (img_resized.drop start_y).take height

/-! ### Timing scheduler (create_slideshow lines 295-307, 330-332, 348, 361) -/

/-- `remaining_time = video_duration - (num_images - 1) * transition_duration`. -/
def remainingTime (vd td : ℚ) (n : ℕ) : ℚ := vd - ((n : ℚ) - 1) * td

/-- `image_duration = remaining_time / num_images`. -/
def imageDuration (vd td : ℚ) (n : ℕ) : ℚ := remainingTime vd td n / (n : ℚ)

/-- `frames_per_image = int(image_duration * frame_rate)`. -/
def framesPerImage (vd td : ℚ) (fr n : ℕ) : ℤ :=
  pyTrunc (imageDuration vd td n * (fr : ℚ))

/-- `transition_frames = int(transition_duration * frame_rate)`. -/
def framesPerTransition (td : ℚ) (fr : ℕ) : ℤ := pyTrunc (td * (fr : ℚ))

/-- `total_frames = int(video_duration * frame_rate)`. -/
def totalFrameBudget (vd : ℚ) (fr : ℕ) : ℤ := pyTrunc (vd * (fr : ℚ))

/-- Failure modes of the schedule computation: the explicit ValueError at
line 304 (feasibility), and the ZeroDivisionError Python would raise at
line 306 when the image list is empty. -/
inductive SchedErr
  | feasibility
  | divByZero
deriving DecidableEq

structure Schedule where
  imageDuration : ℚ
  framesPerImage : ℤ
  framesPerTransition : ℤ
  totalFrameBudget : ℤ
deriving DecidableEq

/-- The schedule quantities of `create_slideshow`, packaged in source
order: the feasibility check (line 303) precedes the division by
`num_images` (line 306). -/
def computeSchedule (vd td : ℚ) (fr n : ℕ) : Except SchedErr Schedule :=
  if remainingTime vd td n ≤ 0 then Except.error SchedErr.feasibility
  else if n = 0 then Except.error SchedErr.divByZero
  else Except.ok ⟨imageDuration vd td n, framesPerImage vd td fr n,
    framesPerTransition td fr, totalFrameBudget vd fr⟩

/-! ### Schedule claims -/

/-- C2: for inputs with positive remaining time (and at least one image,
nonnegative transition duration), the schedule computation returns
exactly `imageDuration = remainingTime / imageCount`,
`framesPerImage = floor(imageDuration * frameRate)`,
`framesPerTransition = floor(transitionDuration * frameRate)` and
`totalFrameBudget = floor(videoDuration * frameRate)`.  The concrete
scenario (10, 1, 10, 3) ↦ (26, 10, 100) is the witness below. -/
theorem computeSchedule_formulas (vd td : ℚ) (fr n : ℕ) (hn : 0 < n) (htd : 0 ≤ td)
    (hrem : 0 < remainingTime vd td n) :
    computeSchedule vd td fr n =
      Except.ok ⟨remainingTime vd td n / (n : ℚ),
        ⌊remainingTime vd td n / (n : ℚ) * (fr : ℚ)⌋,
        ⌊td * (fr : ℚ)⌋, ⌊vd * (fr : ℚ)⌋⟩ := by
  have h1 : (1 : ℚ) ≤ (n : ℚ) := by exact_mod_cast hn
  have htt : 0 ≤ ((n : ℚ) - 1) * td := mul_nonneg (by linarith) htd
  have hvd : 0 ≤ vd := by
    unfold remainingTime at hrem
    linarith
  have hid : 0 ≤ imageDuration vd td n :=
    div_nonneg hrem.le (by positivity)
  unfold computeSchedule
  rw [if_neg (not_le.mpr hrem), if_neg (by omega : ¬ n = 0)]
  unfold framesPerImage framesPerTransition totalFrameBudget imageDuration
  rw [pyTrunc_of_nonneg (mul_nonneg (div_nonneg hrem.le (by positivity)) (by positivity)),
    pyTrunc_of_nonneg (mul_nonneg htd (by positivity)),
    pyTrunc_of_nonneg (mul_nonneg hvd (by positivity))]

theorem computeSchedule_formulas_witness :
    computeSchedule 10 1 10 3 = Except.ok ⟨8/3, 26, 10, 100⟩ := by
  have h := computeSchedule_formulas 10 1 10 3 (by norm_num) (by norm_num)
    (by norm_num [remainingTime])
  rw [h]
  norm_num [remainingTime]

/-- C3: the schedule computation fails with the feasibility error exactly
when `transitionDuration * (imageCount - 1) ≥ videoDuration`; otherwise
(given at least one image) it succeeds — before any frame work — with a
strictly positive derived `imageDuration`. -/
theorem computeSchedule_feasibility (vd td : ℚ) (fr n : ℕ) :
    (computeSchedule vd td fr n = Except.error SchedErr.feasibility ↔
      vd ≤ td * ((n : ℚ) - 1))
    ∧ (0 < n → ¬ vd ≤ td * ((n : ℚ) - 1) →
        ∃ s, computeSchedule vd td fr n = Except.ok s ∧ 0 < s.imageDuration) := by
  have hcomm : td * ((n : ℚ) - 1) = ((n : ℚ) - 1) * td := mul_comm _ _
  constructor
  · constructor
    · intro hfail
      by_contra hnot
      have hrem : ¬ remainingTime vd td n ≤ 0 := by
        unfold remainingTime
        rw [hcomm] at hnot
        intro hle
        exact hnot (by linarith)
      unfold computeSchedule at hfail
      rw [if_neg hrem] at hfail
      by_cases hz : n = 0
      · rw [if_pos hz] at hfail
        exact SchedErr.noConfusion (Except.error.inj hfail)
      · rw [if_neg hz] at hfail
        exact Except.noConfusion hfail
    · intro hge
      have hrem : remainingTime vd td n ≤ 0 := by
        unfold remainingTime
        rw [hcomm] at hge
        linarith
      unfold computeSchedule
      rw [if_pos hrem]
  · intro hn hnot
    have hrem : 0 < remainingTime vd td n := by
      unfold remainingTime
      rw [hcomm] at hnot
      push_neg at hnot
      linarith
    refine ⟨⟨imageDuration vd td n, framesPerImage vd td fr n,
      framesPerTransition td fr, totalFrameBudget vd fr⟩, ?_, ?_⟩
    · unfold computeSchedule
      rw [if_neg (not_le.mpr hrem), if_neg (by omega : ¬ n = 0)]
    · have hnq : (0 : ℚ) < (n : ℚ) := by exact_mod_cast hn
      exact div_pos hrem hnq

theorem computeSchedule_feasibility_witness :
    computeSchedule 1 1 25 3 = Except.error SchedErr.feasibility
    ∧ ∃ s, computeSchedule 10 1 10 3 = Except.ok s ∧ 0 < s.imageDuration :=
  ⟨(computeSchedule_feasibility 1 1 25 3).1.mpr (by norm_num),
    (computeSchedule_feasibility 10 1 10 3).2 (by norm_num) (by norm_num)⟩

/-- C6: for every valid schedule (positive remaining time, at least one
image, nonnegative transition duration) the independently floored
per-segment frame counts satisfy
`framesPerImage * imageCount + framesPerTransition * (imageCount - 1) ≤
totalFrameBudget`. -/
theorem schedule_budget_bound (vd td : ℚ) (fr n : ℕ) (hn : 0 < n) (htd : 0 ≤ td)
    (hrem : 0 < remainingTime vd td n) :
    framesPerImage vd td fr n * (n : ℤ) + framesPerTransition td fr * ((n : ℤ) - 1)
      ≤ totalFrameBudget vd fr := by
  have h1 : (1 : ℚ) ≤ (n : ℚ) := by exact_mod_cast hn
  have hnq : (0 : ℚ) < (n : ℚ) := by linarith
  have htt : 0 ≤ ((n : ℚ) - 1) * td := mul_nonneg (by linarith) htd
  have hvd : 0 ≤ vd := by
    unfold remainingTime at hrem
    linarith
  have hid : 0 ≤ imageDuration vd td n := div_nonneg hrem.le hnq.le
  unfold framesPerImage framesPerTransition totalFrameBudget
  rw [pyTrunc_of_nonneg (mul_nonneg hid (by positivity)),
    pyTrunc_of_nonneg (mul_nonneg htd (by positivity)),
    pyTrunc_of_nonneg (mul_nonneg hvd (by positivity))]
  rw [Int.le_floor]
  push_cast
  have hA : (⌊imageDuration vd td n * (fr : ℚ)⌋ : ℚ) * (n : ℚ)
      ≤ imageDuration vd td n * (fr : ℚ) * (n : ℚ) :=
    mul_le_mul_of_nonneg_right (Int.floor_le _) hnq.le
  have hB : (⌊td * (fr : ℚ)⌋ : ℚ) * ((n : ℚ) - 1)
      ≤ td * (fr : ℚ) * ((n : ℚ) - 1) :=
    mul_le_mul_of_nonneg_right (Int.floor_le _) (by linarith)
  have hkey : imageDuration vd td n * (fr : ℚ) * (n : ℚ)
      + td * (fr : ℚ) * ((n : ℚ) - 1) = vd * (fr : ℚ) := by
    unfold imageDuration remainingTime
    field_simp
    ring
  linarith

theorem schedule_budget_bound_witness :
    framesPerImage 10 1 10 3 * 3 + framesPerTransition 1 10 * 2
      ≤ totalFrameBudget 10 10 :=
  schedule_budget_bound 10 1 10 3 (by norm_num) (by norm_num)
    (by norm_num [remainingTime])

/-! ### Slideshow builder (create_slideshow, lines 274-386)

The configuration carries the already-parsed float/int options.  The
per-boundary transition choice (`random.randint(0, 8)` in random mode, a
fixed value otherwise, `0` after the unknown-type warning) is modelled by
the oracle `choose : ℕ → ℕ` indexed by the image position. -/

structure Config where
  transitionDuration : ℚ
  videoDuration : ℚ
  frameRate : ℕ
  choose : ℕ → ℕ

/-- `target_h = int(w * 9 / 16)` where `w` is the first image's width. -/
def targetH (w : ℕ) : ℕ := Int.toNat (pyTrunc ((w : ℚ) * 9 / 16))

/-- Failure modes of a build: the feasibility ValueError (line 304), the
ZeroDivisionError at line 306 on an empty list, the ValueError for an
unreadable first image (line 312), and an uncaught numpy/cv2 error inside
the frame loop. -/
inductive BuildError
  | feasibility
  | divByZero
  | firstImageLoad
  | loopCrash
deriving DecidableEq

/-- The loop constants of one build run. -/
structure RunCtx where
  budget : ℕ
  fpi : ℕ
  tf : ℕ
  tw : ℕ
  th : ℕ
  choose : ℕ → ℕ

/-- The mutable loop state: `prev_image`, `frame_count`, and the frames
written to the sink so far (in order). -/
structure BState where
  prev : Option Frame
  count : ℕ
  frames : List Frame

/-- One display segment: `k` iterations of
`if frame_count < total_frames: out.write(frame); frame_count += 1`. -/
def emitCopies (budget : ℕ) (frame : Frame) : ℕ → BState → BState
  | 0, s => s
  | k + 1, s =>
    if s.count < budget then
      emitCopies budget frame k ⟨s.prev, s.count + 1, s.frames ++ [frame]⟩
    else
      emitCopies budget frame k s

/-- One transition segment over the loop indices `js` (`range(transition_frames)`):
each budgeted step evaluates `progress = j / transition_frames` and calls
apply_transition on `prev_image` — which crashes (none) if `prev_image` is
still `None` or if the transition itself raises. -/
def emitTransition (budget tf : ℕ) (curr : Frame) (kind : ℕ) :
    List ℕ → BState → Option BState
  | [], s => some s
  | j :: js, s =>
    if s.count < budget then
      match s.prev with
      | none => none
      | some pv =>
        match apply_transition pv curr kind ((j : ℚ) / (tf : ℚ)) with
        | none => none
        | some f =>
          emitTransition budget tf curr kind js ⟨s.prev, s.count + 1, s.frames ++ [f]⟩
    else
      emitTransition budget tf curr kind js s

/-- The body of `for i, img_path in enumerate(image_files)`: an unreadable
image is skipped with a warning; otherwise the image is normalized, the
segment frames are emitted (display only for `i = 0`, transition followed
by display otherwise) and `prev_image` is updated. -/
def buildStep (ctx : RunCtx) (i : ℕ) (img? : Option Frame) (s : BState) :
    Option BState :=
  match img? with
  | none => some s
  | some raw =>
    let curr := resize_image raw ctx.tw ctx.th
    if i = 0 then
      some { emitCopies ctx.budget curr ctx.fpi s with prev := some curr }
    else
      match emitTransition ctx.budget ctx.tf curr (ctx.choose i) (List.range ctx.tf) s with
      | none => none
      | some s1 =>
        some { emitCopies ctx.budget curr ctx.fpi s1 with prev := some curr }

/-- The image loop, `i` counting every list entry (enumerate). -/
def runImages (ctx : RunCtx) : ℕ → BState → List (Option Frame) → Option BState
  | _, s, [] => some s
  | i, s, img? :: rest =>
    match buildStep ctx i img? s with
    | none => none
    | some s1 => runImages ctx (i + 1) s1 rest

/-- The loop constants of a run: the budget `total_frames`, the floored
segment lengths, and the canvas size `target_w x target_h` derived from
the first image. -/
def buildCtx (cfg : Config) (n : ℕ) (first : Frame) : RunCtx :=
  { budget := Int.toNat (totalFrameBudget cfg.videoDuration cfg.frameRate)
    fpi := Int.toNat (framesPerImage cfg.videoDuration cfg.transitionDuration
      cfg.frameRate n)
    tf := Int.toNat (framesPerTransition cfg.transitionDuration cfg.frameRate)
    tw := frameWidth first
    th := targetH (frameWidth first)
    choose := cfg.choose }

/-- create_slideshow: schedule feasibility check, first-image probe for the
canvas resolution, then the frame loop.  The result is the list of frames
written to the sink.  The sink itself is external and assumed to open. -/
def create_slideshow (cfg : Config) (images : List (Option Frame)) :
    Except BuildError (List Frame) :=
  let n := images.length
  if remainingTime cfg.videoDuration cfg.transitionDuration n ≤ 0 then
    Except.error BuildError.feasibility
  else if n = 0 then Except.error BuildError.divByZero
  else
    match images.head? with
    | none => Except.error BuildError.divByZero
    | some none => Except.error BuildError.firstImageLoad
    | some (some first) =>
      match runImages (buildCtx cfg n first) 0 ⟨none, 0, []⟩ images with
      | none => Except.error BuildError.loopCrash
      | some s => Except.ok s.frames

/-! ### List toolbox -/

theorem zipWith_id_left {α β : Type} (f : α → β → α) :
    ∀ (A : List α) (B : List β), A.length = B.length →
      (∀ a ∈ A, ∀ b ∈ B, f a b = a) → List.zipWith f A B = A := by
  intro A
  induction A with
  | nil =>
    intro B _ _
    simp
  | cons a t ih =>
    intro B hlen hf
    cases B with
    | nil => simp at hlen
    | cons b u =>
      simp only [List.zipWith_cons_cons, List.cons.injEq]
      refine ⟨hf a (by simp) b (by simp), ih u (by simpa using hlen) ?_⟩
      intro x hx y hy
      exact hf x (by simp [hx]) y (by simp [hy])

theorem zipWith_id_right {α β : Type} (f : α → β → β) :
    ∀ (A : List α) (B : List β), A.length = B.length →
      (∀ a ∈ A, ∀ b ∈ B, f a b = b) → List.zipWith f A B = B := by
  intro A
  induction A with
  | nil =>
    intro B hlen _
    cases B with
    | nil => simp
    | cons b u => simp at hlen
  | cons a t ih =>
    intro B hlen hf
    cases B with
    | nil => simp at hlen
    | cons b u =>
      simp only [List.zipWith_cons_cons, List.cons.injEq]
      refine ⟨hf a (by simp) b (by simp), ih u (by simpa using hlen) ?_⟩
      intro x hx y hy
      exact hf x (by simp [hx]) y (by simp [hy])

theorem mem_of_zipWith {α β γ : Type} (f : α → β → γ) :
    ∀ (A : List α) (B : List β) (c : γ), c ∈ List.zipWith f A B →
      ∃ a ∈ A, ∃ b ∈ B, c = f a b := by
  intro A
  induction A with
  | nil =>
    intro B c hc
    simp at hc
  | cons a t ih =>
    intro B c hc
    cases B with
    | nil => simp at hc
    | cons b u =>
      simp only [List.zipWith_cons_cons, List.mem_cons] at hc
      rcases hc with hc | hc
      · exact ⟨a, by simp, b, by simp, hc⟩
      · obtain ⟨x, hx, y, hy, hxy⟩ := ih u c hc
        exact ⟨x, by simp [hx], y, by simp [hy], hxy⟩

theorem WF.width {f : Frame} {h w : ℕ} (hf : WF f h w) (hh : 0 < h) :
    frameWidth f = w := by
  obtain ⟨hlen, hrows⟩ := hf
  cases f with
  | nil => simp at hlen; omega
  | cons r t => exact hrows r (by simp)

/-! ### C4: fade is the identity at the progress boundaries -/

/-- A pixel whose channels fit in uint8. -/
def Pix255 (x : Pix) : Prop := x.1 ≤ 255 ∧ x.2.1 ≤ 255 ∧ x.2.2 ≤ 255

instance (x : Pix) : Decidable (Pix255 x) := by
  unfold Pix255
  infer_instance

/-- A frame of uint8 pixel samples, as every cv2 frame is. -/
def Frame255 (f : Frame) : Prop := ∀ r ∈ f, ∀ x ∈ r, Pix255 x

instance (f : Frame) : Decidable (Frame255 f) := by
  unfold Frame255
  infer_instance

theorem satRound_natCast (a : ℕ) (ha : a ≤ 255) : satRound (a : ℚ) = a := by
  unfold satRound
  have hfl : ⌊(a : ℚ) + 1/2⌋ = (a : ℤ) := by
    rw [Int.floor_eq_iff]
    constructor
    · push_cast
      linarith
    · push_cast
      linarith
  rw [hfl]
  simp [ha]

theorem blendPix_one_zero (x y : Pix) (hx : Pix255 x) : blendPix x 1 y 0 = x := by
  obtain ⟨x1, x2, x3⟩ := x
  obtain ⟨h1, h2, h3⟩ := hx
  simp only [blendPix, mul_one, mul_zero, add_zero]
  rw [satRound_natCast _ h1, satRound_natCast _ h2, satRound_natCast _ h3]

theorem blendPix_zero_one (x y : Pix) (hy : Pix255 y) : blendPix x 0 y 1 = y := by
  obtain ⟨y1, y2, y3⟩ := y
  obtain ⟨h1, h2, h3⟩ := hy
  simp only [blendPix, mul_one, mul_zero, zero_add]
  rw [satRound_natCast _ h1, satRound_natCast _ h2, satRound_natCast _ h3]

/-- C4: for equal-resolution uint8 frames, the fade transition at
progress 0 returns `prev` exactly and at progress 1 returns `next`
exactly. -/
theorem fade_boundary_identity (A B : Frame) (h w : ℕ) (hA : WF A h w)
    (hB : WF B h w) (hh : 0 < h) (h255A : Frame255 A) (h255B : Frame255 B) :
    apply_transition A B 0 0 = some A ∧ apply_transition A B 0 1 = some B := by
  have hwA : frameWidth A = w := hA.width hh
  have hwB : frameWidth B = w := hB.width hh
  have hlen : A.length = B.length := by rw [hA.1, hB.1]
  have hguard : A.length = B.length ∧ frameWidth A = frameWidth B :=
    ⟨hlen, by rw [hwA, hwB]⟩
  constructor
  · show addWeighted A (1 - 0) B 0 = some A
    rw [show (1 : ℚ) - 0 = 1 by norm_num]
    unfold addWeighted
    rw [if_pos hguard]
    congr 1
    apply zipWith_id_left _ _ _ hlen
    intro ra hra rb hrb
    apply zipWith_id_left _ _ _ (by rw [hA.2 ra hra, hB.2 rb hrb])
    intro x hx y _
    exact blendPix_one_zero x y (h255A ra hra x hx)
  · show addWeighted A (1 - 1) B 1 = some B
    rw [show (1 : ℚ) - 1 = 0 by norm_num]
    unfold addWeighted
    rw [if_pos hguard]
    congr 1
    apply zipWith_id_right _ _ _ hlen
    intro ra hra rb hrb
    apply zipWith_id_right _ _ _ (by rw [hA.2 ra hra, hB.2 rb hrb])
    intro x _ y hy
    exact blendPix_zero_one x y (h255B rb hrb y hy)

theorem fade_boundary_identity_witness :
    apply_transition [[((1, 2, 3) : Pix)]] [[((4, 5, 6) : Pix)]] 0 0 =
      some [[((1, 2, 3) : Pix)]] ∧
    apply_transition [[((1, 2, 3) : Pix)]] [[((4, 5, 6) : Pix)]] 0 1 =
      some [[((4, 5, 6) : Pix)]] :=
  fade_boundary_identity _ _ 1 1 (by decide) (by decide) (by decide)
    (by decide) (by decide)

/-! ### C5: wipe-left boundary and column structure -/

theorem wipeCut_le {w : ℕ} {p : ℚ} (hp0 : 0 ≤ p) (hp1 : p ≤ 1) :
    Int.toNat (pyTrunc ((w : ℚ) * p)) ≤ w := by
  rw [pyTrunc_of_nonneg (by positivity)]
  have h1 : ((w : ℚ) * p) ≤ (w : ℚ) := by
    calc (w : ℚ) * p ≤ (w : ℚ) * 1 :=
      mul_le_mul_of_nonneg_left hp1 (by positivity)
    _ = (w : ℚ) := mul_one _
  have h2 : ⌊(w : ℚ) * p⌋ ≤ (w : ℤ) := by
    have := Int.floor_le_floor h1
    rwa [Int.floor_natCast] at this
  omega

theorem wipeCut_mono {w : ℕ} {p q : ℚ} (hp0 : 0 ≤ p) (hpq : p ≤ q) :
    Int.toNat (pyTrunc ((w : ℚ) * p)) ≤ Int.toNat (pyTrunc ((w : ℚ) * q)) := by
  rw [pyTrunc_of_nonneg (by positivity),
    pyTrunc_of_nonneg (mul_nonneg (Nat.cast_nonneg w) (hp0.trans hpq))]
  have : (w : ℚ) * p ≤ (w : ℚ) * q :=
    mul_le_mul_of_nonneg_left hpq (by positivity)
  exact Int.toNat_le_toNat (Int.floor_le_floor this)

/-- C5: for equal-resolution frames, wipe-left equals `prev` at progress 0
and `next` at progress 1; at every intermediate progress the result takes
the left `floor(w * p)` columns from `next` and the rest from `prev`, and
the column boundary `floor(w * p)` is monotone in the progress. -/
theorem wipeLeft_spec (A B : Frame) (h w : ℕ) (hA : WF A h w) (hB : WF B h w)
    (hh : 0 < h) :
    apply_transition A B 1 0 = some A ∧
    apply_transition A B 1 1 = some B ∧
    (∀ p : ℚ, 0 ≤ p → p ≤ 1 →
      apply_transition A B 1 p =
        some (List.zipWith
          (fun pr nr => nr.take (Int.toNat (pyTrunc ((w : ℚ) * p))) ++
            pr.drop (Int.toNat (pyTrunc ((w : ℚ) * p)))) A B)) ∧
    (∀ p q : ℚ, 0 ≤ p → p ≤ q →
      Int.toNat (pyTrunc ((w : ℚ) * p)) ≤ Int.toNat (pyTrunc ((w : ℚ) * q))) := by
  have hwA : frameWidth A = w := hA.width hh
  have hwB : frameWidth B = w := hB.width hh
  have hlen : A.length = B.length := by rw [hA.1, hB.1]
  have hgen : ∀ p : ℚ, 0 ≤ p → p ≤ 1 →
      apply_transition A B 1 p =
        some (List.zipWith
          (fun pr nr => nr.take (Int.toNat (pyTrunc ((w : ℚ) * p))) ++
            pr.drop (Int.toNat (pyTrunc ((w : ℚ) * p)))) A B) := by
    intro p hp0 hp1
    show wipeLeft A B p = _
    unfold wipeLeft
    rw [hwA, hwB]
    rw [if_pos ⟨hlen, rfl⟩]
  refine ⟨?_, ?_, hgen, fun p q hp0 hpq => wipeCut_mono hp0 hpq⟩
  · rw [hgen 0 le_rfl zero_le_one]
    congr 1
    have hcut : Int.toNat (pyTrunc ((w : ℚ) * 0)) = 0 := by
      rw [mul_zero, pyTrunc_of_nonneg le_rfl]
      simp
    rw [hcut]
    apply zipWith_id_left _ _ _ hlen
    intro a _ b _
    simp
  · rw [hgen 1 zero_le_one le_rfl]
    congr 1
    have hcut : Int.toNat (pyTrunc ((w : ℚ) * 1)) = w := by
      rw [mul_one, pyTrunc_of_nonneg (by positivity)]
      simp
    rw [hcut]
    apply zipWith_id_right _ _ _ hlen
    intro a ha b hb
    rw [List.take_of_length_le (le_of_eq (hB.2 b hb)),
      List.drop_of_length_le (le_of_eq (hA.2 a ha)), List.append_nil]

theorem wipeLeft_spec_witness :
    apply_transition [[((1, 1, 1) : Pix), ((2, 2, 2) : Pix)]]
        [[((3, 3, 3) : Pix), ((4, 4, 4) : Pix)]] 1 0 =
      some [[((1, 1, 1) : Pix), ((2, 2, 2) : Pix)]] ∧
    apply_transition [[((1, 1, 1) : Pix), ((2, 2, 2) : Pix)]]
        [[((3, 3, 3) : Pix), ((4, 4, 4) : Pix)]] 1 1 =
      some [[((3, 3, 3) : Pix), ((4, 4, 4) : Pix)]] ∧
    Int.toNat (pyTrunc ((2 : ℚ) * (1/3))) ≤ Int.toNat (pyTrunc ((2 : ℚ) * (1/2))) := by
  obtain ⟨h0, h1, _, hmono⟩ :=
    wipeLeft_spec [[((1, 1, 1) : Pix), ((2, 2, 2) : Pix)]]
      [[((3, 3, 3) : Pix), ((4, 4, 4) : Pix)]] 1 2 (by decide) (by decide) (by decide)
  exact ⟨h0, h1, hmono (1/3) (1/2) (by norm_num) (by norm_num)⟩

/-! ### C8: resolution precondition of the transition engine

The fade path (cv2.addWeighted) raises on mismatched sizes, but the zoom
paths resize the incoming frame to dimensions computed from the canvas and
never compare the two input resolutions: they return a frame. -/

/-- C8 (amended): the fade transition with mismatched-resolution inputs
raises (none): no output frame is produced. -/
theorem fade_mismatch_error (A B : Frame) (p : ℚ)
    (hmm : A.length ≠ B.length ∨ frameWidth A ≠ frameWidth B) :
    apply_transition A B 0 p = none := by
  show addWeighted A (1 - p) B p = none
  unfold addWeighted
  rw [if_neg]
  tauto

theorem fade_mismatch_error_witness :
    apply_transition [[((1, 2, 3) : Pix)]] [] 0 (1/2) = none :=
  fade_mismatch_error _ _ _ (Or.inl (by decide))

/-- C8 (counterexample): zoom-in called on frames of different resolutions
raises no error and returns a frame — the claimed precondition error does
not occur for every transition kind. -/
theorem zoom_mismatch_produces_frame :
    ([[((7, 7, 7) : Pix), ((7, 7, 7) : Pix)], [((7, 7, 7) : Pix), ((7, 7, 7) : Pix)]] :
        Frame).length ≠ ([[((9, 9, 9) : Pix)]] : Frame).length ∧
    apply_transition
        [[((7, 7, 7) : Pix), ((7, 7, 7) : Pix)], [((7, 7, 7) : Pix), ((7, 7, 7) : Pix)]]
        [[((9, 9, 9) : Pix)]] 5 (1/2) =
      some [[((9, 9, 9) : Pix), ((9, 9, 9) : Pix)],
        [((9, 9, 9) : Pix), ((9, 9, 9) : Pix)]] :=
  of_decide_eq_true (by with_unfolding_all rfl)

/-! ### Dimension preservation of the normalizer -/

theorem cvResize_WF (img : Frame) (w h : ℕ) : WF (cvResize img w h) h w := by
  constructor
  · simp [cvResize]
  · intro r hr
    unfold cvResize at hr
    obtain ⟨y, _, rfl⟩ := List.mem_map.mp hr
    simp

theorem floor_scale_ge {W H : ℕ} {cr : ℚ} (hH : 0 < H)
    (hlt : (W : ℚ) / (H : ℚ) < cr) : W ≤ Int.toNat ⌊(H : ℚ) * cr⌋ := by
  have hHq : (0 : ℚ) < (H : ℚ) := by exact_mod_cast hH
  have h1 : (W : ℚ) < cr * (H : ℚ) := (div_lt_iff₀ hHq).mp hlt
  have h2 : (W : ℤ) ≤ ⌊(H : ℚ) * cr⌋ := Int.le_floor.mpr (by push_cast; linarith)
  omega

theorem floor_invScale_ge {W H : ℕ} {cr : ℚ} (_hW : 0 < W) (hH : 0 < H)
    (hcr : 0 < cr) (hle : cr ≤ (W : ℚ) / (H : ℚ)) :
    H ≤ Int.toNat ⌊(W : ℚ) / cr⌋ := by
  have hHq : (0 : ℚ) < (H : ℚ) := by exact_mod_cast hH
  have h1 : cr * (H : ℚ) ≤ (W : ℚ) := by
    have h2 : cr * (H : ℚ) ≤ ((W : ℚ) / (H : ℚ)) * (H : ℚ) :=
      mul_le_mul_of_nonneg_right hle hHq.le
    rwa [div_mul_cancel₀ _ hHq.ne'] at h2
  have h3 : (H : ℚ) ≤ (W : ℚ) / cr := by
    rw [le_div_iff₀ hcr, mul_comm]
    exact h1
  have h4 : (H : ℤ) ≤ ⌊(W : ℚ) / cr⌋ := Int.le_floor.mpr (by push_cast; linarith)
  omega

/-- C9 (normalizer part): `resize_image` returns a frame of exactly the
target dimensions in the direct-resize branch and in both
resize-then-center-crop branches, for positive source and target sizes. -/
theorem resize_image_WF (image : Frame) (ih iw W H : ℕ)
    (himg : WF image ih iw) (hih : 0 < ih) (hiw : 0 < iw)
    (hW : 0 < W) (hH : 0 < H) :
    WF (resize_image image W H) H W := by
  have hihq : (0 : ℚ) < (ih : ℚ) := by exact_mod_cast hih
  have hiwq : (0 : ℚ) < (iw : ℚ) := by exact_mod_cast hiw
  have hcr : (0 : ℚ) < (iw : ℚ) / (ih : ℚ) := div_pos hiwq hihq
  simp only [resize_image, himg.1, himg.width hih]
  split_ifs with hclose hwider
  · exact cvResize_WF image W H
  · -- wider: resize to (new_w, H), crop columns to W
    have hnw : W ≤ Int.toNat (pyTrunc ((H : ℚ) * ((iw : ℚ) / (ih : ℚ)))) := by
      rw [pyTrunc_of_nonneg (by positivity)]
      exact floor_scale_ge hH hwider
    constructor
    · simp [(cvResize_WF image _ H).1]
    · intro r hr
      obtain ⟨r0, hr0, rfl⟩ := List.mem_map.mp hr
      have hr0len : r0.length = Int.toNat (pyTrunc ((H : ℚ) * ((iw : ℚ) / (ih : ℚ)))) :=
        (cvResize_WF image _ H).2 r0 hr0
      rw [List.length_take, List.length_drop, hr0len]
      omega
  · -- taller: resize to (W, new_h), crop rows to H
    have hnh : H ≤ Int.toNat (pyTrunc ((W : ℚ) / ((iw : ℚ) / (ih : ℚ)))) := by
      rw [pyTrunc_of_nonneg (by positivity)]
      exact floor_invScale_ge hW hH hcr (not_lt.mp hwider)
    constructor
    · rw [List.length_take, List.length_drop, (cvResize_WF image W _).1]
      omega
    · intro r hr
      exact (cvResize_WF image W _).2 r
        (List.mem_of_mem_drop (List.mem_of_mem_take hr))

/-! ### Dimension preservation of every transition kind -/

theorem wipeLeft_WF {A B : Frame} {h w : ℕ} (hA : WF A h w) (hB : WF B h w)
    (hh : 0 < h) {p : ℚ} (hp0 : 0 ≤ p) (hp1 : p ≤ 1) :
    ∃ f, wipeLeft A B p = some f ∧ WF f h w := by
  have hcut : Int.toNat (pyTrunc ((w : ℚ) * p)) ≤ w := wipeCut_le hp0 hp1
  have heq : wipeLeft A B p = some (List.zipWith
      (fun pr nr => nr.take (Int.toNat (pyTrunc ((w : ℚ) * p))) ++
        pr.drop (Int.toNat (pyTrunc ((w : ℚ) * p)))) A B) := by
    unfold wipeLeft
    rw [hA.width hh, hB.width hh, if_pos ⟨by rw [hA.1, hB.1], rfl⟩]
  refine ⟨_, heq, ?_, ?_⟩
  · rw [List.length_zipWith, hA.1, hB.1, min_self]
  · intro r hr
    obtain ⟨a, ha, b, hb, rfl⟩ := mem_of_zipWith _ _ _ _ hr
    rw [List.length_append, List.length_take, List.length_drop,
      hA.2 a ha, hB.2 b hb]
    omega

theorem wipeRight_WF {A B : Frame} {h w : ℕ} (hA : WF A h w) (hB : WF B h w)
    (hh : 0 < h) {p : ℚ} (hp0 : 0 ≤ p) (hp1 : p ≤ 1) :
    ∃ f, wipeRight A B p = some f ∧ WF f h w := by
  have hcut : Int.toNat (pyTrunc ((w : ℚ) * (1 - p))) ≤ w :=
    wipeCut_le (by linarith) (by linarith)
  have heq : wipeRight A B p = some (List.zipWith
      (fun pr nr => pr.take (Int.toNat (pyTrunc ((w : ℚ) * (1 - p)))) ++
        nr.drop (Int.toNat (pyTrunc ((w : ℚ) * (1 - p))))) A B) := by
    unfold wipeRight
    rw [hA.width hh, hB.width hh, if_pos ⟨by rw [hA.1, hB.1], rfl⟩]
  refine ⟨_, heq, ?_, ?_⟩
  · rw [List.length_zipWith, hA.1, hB.1, min_self]
  · intro r hr
    obtain ⟨a, ha, b, hb, rfl⟩ := mem_of_zipWith _ _ _ _ hr
    rw [List.length_append, List.length_take, List.length_drop,
      hA.2 a ha, hB.2 b hb]
    omega

theorem wipeUp_WF {A B : Frame} {h w : ℕ} (hA : WF A h w) (hB : WF B h w)
    (hh : 0 < h) {p : ℚ} (hp0 : 0 ≤ p) (hp1 : p ≤ 1) :
    ∃ f, wipeUp A B p = some f ∧ WF f h w := by
  have hcut : Int.toNat (pyTrunc ((h : ℚ) * p)) ≤ h := wipeCut_le hp0 hp1
  have heq : wipeUp A B p = some (B.take (Int.toNat (pyTrunc ((h : ℚ) * p))) ++
      A.drop (Int.toNat (pyTrunc ((h : ℚ) * p)))) := by
    unfold wipeUp
    rw [hA.width hh, hB.width hh, hA.1, hB.1, if_pos ⟨rfl, rfl⟩]
  refine ⟨_, heq, ?_, ?_⟩
  · rw [List.length_append, List.length_take, List.length_drop, hA.1, hB.1]
    omega
  · intro r hr
    rcases List.mem_append.mp hr with hr | hr
    · exact hB.2 r (List.mem_of_mem_take hr)
    · exact hA.2 r (List.mem_of_mem_drop hr)

theorem wipeDown_WF {A B : Frame} {h w : ℕ} (hA : WF A h w) (hB : WF B h w)
    (hh : 0 < h) {p : ℚ} (hp0 : 0 ≤ p) (hp1 : p ≤ 1) :
    ∃ f, wipeDown A B p = some f ∧ WF f h w := by
  have hcut : Int.toNat (pyTrunc ((h : ℚ) * (1 - p))) ≤ h :=
    wipeCut_le (by linarith) (by linarith)
  have heq : wipeDown A B p = some (A.take (Int.toNat (pyTrunc ((h : ℚ) * (1 - p)))) ++
      B.drop (Int.toNat (pyTrunc ((h : ℚ) * (1 - p))))) := by
    unfold wipeDown
    rw [hA.width hh, hB.width hh, hA.1, hB.1, if_pos ⟨rfl, rfl⟩]
  refine ⟨_, heq, ?_, ?_⟩
  · rw [List.length_append, List.length_take, List.length_drop, hA.1, hB.1]
    omega
  · intro r hr
    rcases List.mem_append.mp hr with hr | hr
    · exact hA.2 r (List.mem_of_mem_take hr)
    · exact hB.2 r (List.mem_of_mem_drop hr)

theorem overwriteRegion_WF {bg : Frame} {h w : ℕ} (hbg : WF bg h w)
    {sy ey sx ex : ℕ} (hsy : sy ≤ ey) (hey : ey ≤ h) (hsx : sx ≤ ex) (hex : ex ≤ w)
    {block res : Frame} (hres : overwriteRegion bg sy ey sx ex block = some res) :
    WF res h w := by
  simp only [overwriteRegion] at hres
  split_ifs at hres with hg
  obtain ⟨hg1, hg2⟩ := hg
  injection hres with hres
  subst hres
  have hslice : ((bg.take ey).drop sy).length = ey - sy := by
    rw [List.length_drop, List.length_take, hbg.1]
    omega
  constructor
  · have hzip : (List.zipWith (fun r b => r.take sx ++ b ++ r.drop ex)
        ((bg.take ey).drop sy) block).length = ey - sy := by
      rw [List.length_zipWith, hg1, List.length_map, hslice, min_self]
    rw [List.length_append, List.length_append, hzip, List.length_take,
      List.length_drop, hbg.1]
    omega
  · intro r hr
    rcases List.mem_append.mp hr with hr | hr
    · rcases List.mem_append.mp hr with hr | hr
      · exact hbg.2 r (List.mem_of_mem_take hr)
      · obtain ⟨a, ha, b, hb, rfl⟩ := mem_of_zipWith _ _ _ _ hr
        have halen : a.length = w := hbg.2 a (List.mem_of_mem_take (List.mem_of_mem_drop ha))
        have hblen : b.length = ex - sx := by
          have hmem : b.length ∈ block.map List.length := List.mem_map_of_mem _ hb
          rw [hg2] at hmem
          obtain ⟨t, ht, hteq⟩ := List.mem_map.mp hmem
          obtain ⟨a1, ha1, rfl⟩ := List.mem_map.mp ht
          have ha1len : a1.length = w :=
            hbg.2 a1 (List.mem_of_mem_take (List.mem_of_mem_drop ha1))
          rw [← hteq, List.length_drop, List.length_take, ha1len]
          omega
        rw [List.length_append, List.length_append, List.length_take,
          List.length_drop, halen, hblen]
        omega
    · exact hbg.2 r (List.mem_of_mem_drop hr)

theorem matchOverwrite_WF {bg : Frame} {h w : ℕ} {sy ey sx ex : ℕ} {block : Frame}
    {fb : Option Frame} (hbg : WF bg h w) (hsy : sy ≤ ey) (hey : ey ≤ h)
    (hsx : sx ≤ ex) (hex : ex ≤ w) (hfb : ∃ f, fb = some f ∧ WF f h w) :
    ∃ f, (match overwriteRegion bg sy ey sx ex block with
          | some res => some res
          | none => fb) = some f ∧ WF f h w := by
  cases hov : overwriteRegion bg sy ey sx ex block with
  | some res =>
    exact ⟨res, rfl, overwriteRegion_WF hbg hsy hey hsx hex hov⟩
  | none =>
    obtain ⟨f, hf, hwf⟩ := hfb
    exact ⟨f, hf, hwf⟩

theorem addWeighted_WF {A B : Frame} {h w : ℕ} (hA : WF A h w) (hB : WF B h w)
    (hh : 0 < h) (wa wb : ℚ) :
    ∃ f, addWeighted A wa B wb = some f ∧ WF f h w := by
  have heq : addWeighted A wa B wb = some (List.zipWith
      (fun ra rb => List.zipWith (fun x y => blendPix x wa y wb) ra rb) A B) := by
    unfold addWeighted
    rw [if_pos ⟨by rw [hA.1, hB.1], by rw [hA.width hh, hB.width hh]⟩]
  refine ⟨_, heq, ?_, ?_⟩
  · rw [List.length_zipWith, hA.1, hB.1, min_self]
  · intro r hr
    obtain ⟨a, ha, b, hb, rfl⟩ := mem_of_zipWith _ _ _ _ hr
    rw [List.length_zipWith, hA.2 a ha, hB.2 b hb, min_self]

theorem zoomPlace_WF {bg A B : Frame} {h w : ℕ} (hbg : WF bg h w) (hA : WF A h w)
    (hB : WF B h w) (hh : 0 < h) (p : ℚ) (scaled : Frame) (sw sh : ℕ) :
    ∃ f, zoomPlace bg A B p scaled h w sw sh = some f ∧ WF f h w := by
  unfold zoomPlace
  exact matchOverwrite_WF hbg (by omega) (by omega) (by omega) (by omega)
    (addWeighted_WF hA hB hh _ _)

theorem zoomIn_WF {A B : Frame} {h w : ℕ} (hA : WF A h w) (hB : WF B h w)
    (hh : 0 < h) {p : ℚ} : ∃ f, zoomIn A B p = some f ∧ WF f h w := by
  simp only [zoomIn]
  rw [hA.1, hA.width hh]
  exact zoomPlace_WF hA hA hB hh p _ _ _

theorem zoomOut_WF {A B : Frame} {h w : ℕ} (hA : WF A h w) (hB : WF B h w)
    (hh : 0 < h) {p : ℚ} : ∃ f, zoomOut A B p = some f ∧ WF f h w := by
  simp only [zoomOut]
  rw [hA.1, hA.width hh]
  exact zoomPlace_WF hB hA hB hh p _ _ _

theorem slideLeft_WF {A B : Frame} {h w : ℕ} (hA : WF A h w) (hB : WF B h w)
    (hh : 0 < h) {p : ℚ} (hp0 : 0 ≤ p) (hp1 : p ≤ 1) :
    ∃ f, slideLeft A B p = some f ∧ WF f h w := by
  have hoff : Int.toNat (pyTrunc ((w : ℚ) * p)) ≤ w := wipeCut_le hp0 hp1
  simp only [slideLeft, hA.1, hA.width hh, hB.width hh]
  set off := Int.toNat (pyTrunc ((w : ℚ) * p)) with hoffdef
  have hbase : WF (if off < w then
      A.map fun pr => pr.drop off ++ List.replicate off ((0, 0, 0) : Pix)
    else List.replicate h (List.replicate w ((0, 0, 0) : Pix))) h w := by
    split_ifs with hlt
    · constructor
      · rw [List.length_map, hA.1]
      · intro r hr
        obtain ⟨a, ha, rfl⟩ := List.mem_map.mp hr
        rw [List.length_append, List.length_drop, List.length_replicate, hA.2 a ha]
        omega
    · constructor
      · rw [List.length_replicate]
      · intro r hr
        rw [List.eq_of_mem_replicate hr, List.length_replicate]
  by_cases hpos : 0 < off
  · rw [if_pos hpos, if_pos ⟨hB.1.symm, min_eq_left hoff⟩]
    refine ⟨_, rfl, ?_, ?_⟩
    · rw [List.length_zipWith, hbase.1, hB.1, min_self]
    · intro r hr
      obtain ⟨a, ha, b, hb, rfl⟩ := mem_of_zipWith _ _ _ _ hr
      rw [List.length_append, List.length_take, List.length_take,
        hbase.2 a ha, hB.2 b hb]
      omega
  · rw [if_neg hpos]
    exact ⟨_, rfl, hbase⟩

theorem slideRight_WF {A B : Frame} {h w : ℕ} (hA : WF A h w) (hB : WF B h w)
    (hh : 0 < h) {p : ℚ} (hp0 : 0 ≤ p) (hp1 : p ≤ 1) :
    ∃ f, slideRight A B p = some f ∧ WF f h w := by
  have hoff : Int.toNat (pyTrunc ((w : ℚ) * p)) ≤ w := wipeCut_le hp0 hp1
  simp only [slideRight, hA.1, hA.width hh, hB.width hh]
  set off := Int.toNat (pyTrunc ((w : ℚ) * p)) with hoffdef
  have hbase : WF (if off < w then
      A.map fun pr => List.replicate off ((0, 0, 0) : Pix) ++ pr.take (w - off)
    else List.replicate h (List.replicate w ((0, 0, 0) : Pix))) h w := by
    split_ifs with hlt
    · constructor
      · rw [List.length_map, hA.1]
      · intro r hr
        obtain ⟨a, ha, rfl⟩ := List.mem_map.mp hr
        rw [List.length_append, List.length_take, List.length_replicate, hA.2 a ha]
        omega
    · constructor
      · rw [List.length_replicate]
      · intro r hr
        rw [List.eq_of_mem_replicate hr, List.length_replicate]
  by_cases hpos : 0 < off
  · rw [if_pos hpos, if_pos ⟨hB.1.symm, by rw [min_eq_left (Nat.sub_le w off)]; omega⟩]
    refine ⟨_, rfl, ?_, ?_⟩
    · rw [List.length_zipWith, hbase.1, hB.1, min_self]
    · intro r hr
      obtain ⟨a, ha, b, hb, rfl⟩ := mem_of_zipWith _ _ _ _ hr
      rw [List.length_append, List.length_drop, List.length_drop,
        hbase.2 a ha, hB.2 b hb]
      omega
  · rw [if_neg hpos]
    exact ⟨_, rfl, hbase⟩

/-- Every transition kind, applied to two frames of the shared canvas
resolution at a progress in [0, 1], succeeds and returns a frame of that
same resolution. -/
theorem apply_transition_WF {A B : Frame} {h w : ℕ} (hA : WF A h w) (hB : WF B h w)
    (hh : 0 < h) {p : ℚ} (hp0 : 0 ≤ p) (hp1 : p ≤ 1) (ttype : ℕ) :
    ∃ f, apply_transition A B ttype p = some f ∧ WF f h w := by
  unfold apply_transition
  split_ifs
  · exact addWeighted_WF hA hB hh _ _
  · exact wipeLeft_WF hA hB hh hp0 hp1
  · exact wipeRight_WF hA hB hh hp0 hp1
  · exact wipeUp_WF hA hB hh hp0 hp1
  · exact wipeDown_WF hA hB hh hp0 hp1
  · exact zoomIn_WF hA hB hh
  · exact zoomOut_WF hA hB hh
  · exact slideLeft_WF hA hB hh hp0 hp1
  · exact slideRight_WF hA hB hh hp0 hp1
  · exact addWeighted_WF hA hB hh _ _

/-! ### Builder accounting: the frame budget is never exceeded -/

/-- Loop accounting: the frame counter never passes the budget and equals
the number of frames written so far. -/
def Acct (budget : ℕ) (s : BState) : Prop :=
  s.count ≤ budget ∧ s.frames.length = s.count

theorem emitCopies_acct {budget : ℕ} {frame : Frame} :
    ∀ (k : ℕ) (s : BState), Acct budget s → Acct budget (emitCopies budget frame k s) := by
  intro k
  induction k with
  | zero =>
    intro s hs
    exact hs
  | succ n ih =>
    intro s hs
    simp only [emitCopies]
    split_ifs with hc
    · refine ih _ ⟨?_, ?_⟩
      · show s.count + 1 ≤ budget
        omega
      · show (s.frames ++ [frame]).length = s.count + 1
        simp [hs.2]
    · exact ih _ hs

theorem emitTransition_acct {budget tf : ℕ} {curr : Frame} {kind : ℕ} :
    ∀ (js : List ℕ) (s s' : BState), Acct budget s →
      emitTransition budget tf curr kind js s = some s' → Acct budget s' := by
  intro js
  induction js with
  | nil =>
    intro s s' hs heq
    simp only [emitTransition] at heq
    injection heq with heq
    subst heq
    exact hs
  | cons j js ih =>
    intro s s' hs heq
    simp only [emitTransition] at heq
    split_ifs at heq with hc
    · split at heq
      · exact absurd heq (by simp)
      · split at heq
        · exact absurd heq (by simp)
        · rename_i f happ
          refine ih _ _ ⟨?_, ?_⟩ heq
          · show s.count + 1 ≤ budget
            omega
          · show (s.frames ++ [f]).length = s.count + 1
            simp [hs.2]
    · exact ih _ _ hs heq

theorem buildStep_acct {ctx : RunCtx} {i : ℕ} {img? : Option Frame} {s s' : BState}
    (hs : Acct ctx.budget s) (heq : buildStep ctx i img? s = some s') :
    Acct ctx.budget s' := by
  cases img? with
  | none =>
    simp only [buildStep] at heq
    injection heq with heq
    subst heq
    exact hs
  | some raw =>
    simp only [buildStep] at heq
    split_ifs at heq with hi
    · injection heq with heq
      subst heq
      exact emitCopies_acct _ _ hs
    · split at heq
      · exact absurd heq (by simp)
      · rename_i s1 htr
        injection heq with heq
        subst heq
        exact emitCopies_acct _ _ (emitTransition_acct _ _ _ hs htr)

theorem runImages_acct {ctx : RunCtx} :
    ∀ (images : List (Option Frame)) (i : ℕ) (s s' : BState), Acct ctx.budget s →
      runImages ctx i s images = some s' → Acct ctx.budget s' := by
  intro images
  induction images with
  | nil =>
    intro i s s' hs heq
    simp only [runImages] at heq
    injection heq with heq
    subst heq
    exact hs
  | cons img? rest ih =>
    intro i s s' hs heq
    simp only [runImages] at heq
    split at heq
    · exact absurd heq (by simp)
    · rename_i s1 hstep
      exact ih _ _ _ (buildStep_acct hs hstep) heq

theorem emitCopies_noop {budget : ℕ} {frame : Frame} :
    ∀ (k : ℕ) (s : BState), budget ≤ s.count → emitCopies budget frame k s = s := by
  intro k
  induction k with
  | zero =>
    intro s _
    rfl
  | succ n ih =>
    intro s hs
    simp only [emitCopies]
    rw [if_neg (by omega)]
    exact ih _ hs

theorem emitTransition_noop {budget tf : ℕ} {curr : Frame} {kind : ℕ} :
    ∀ (js : List ℕ) (s : BState), budget ≤ s.count →
      emitTransition budget tf curr kind js s = some s := by
  intro js
  induction js with
  | nil =>
    intro s _
    rfl
  | cons j js ih =>
    intro s hs
    simp only [emitTransition]
    rw [if_neg (by omega)]
    exact ih _ hs

/-- C1: (a) every completed build writes at most
`totalFrameBudget = floor(videoDuration * frameRate)` frames to the sink;
(b) once the frame counter has reached the budget, any further loop step
still succeeds and writes nothing — it only continues for bookkeeping
(the `prev_image` update). -/
theorem total_frames_within_budget (cfg : Config) (hvd : 0 ≤ cfg.videoDuration) :
    (∀ (images : List (Option Frame)) (fs : List Frame),
        create_slideshow cfg images = Except.ok fs →
        (fs.length : ℤ) ≤ ⌊cfg.videoDuration * (cfg.frameRate : ℚ)⌋) ∧
    (∀ (ctx : RunCtx) (i : ℕ) (img? : Option Frame) (s : BState),
        ctx.budget ≤ s.count →
        ∃ s', buildStep ctx i img? s = some s' ∧ s'.count = s.count ∧
          s'.frames = s.frames) := by
  constructor
  · intro images fs heq
    simp only [create_slideshow] at heq
    split_ifs at heq with hrem hz
    split at heq
    · exact absurd heq (by simp)
    · exact absurd heq (by simp)
    · rename_i first hhead
      split at heq
      · exact absurd heq (by simp)
      · rename_i s hrun
        injection heq with heq
        subst heq
        have hacct := runImages_acct images 0 _ s ⟨Nat.zero_le _, rfl⟩ hrun
        simp only [buildCtx] at hacct
        have h1 : s.frames.length ≤
            Int.toNat (totalFrameBudget cfg.videoDuration cfg.frameRate) := by
          have := hacct.1
          have := hacct.2
          omega
        have h2 : totalFrameBudget cfg.videoDuration cfg.frameRate =
            ⌊cfg.videoDuration * (cfg.frameRate : ℚ)⌋ :=
          pyTrunc_of_nonneg (mul_nonneg hvd (by positivity))
        rw [← h2]
        have h3 : 0 ≤ totalFrameBudget cfg.videoDuration cfg.frameRate := by
          rw [h2]
          exact Int.floor_nonneg.mpr (mul_nonneg hvd (by positivity))
        omega
  · intro ctx i img? s hfull
    cases img? with
    | none => exact ⟨s, rfl, rfl, rfl⟩
    | some raw =>
      simp only [buildStep]
      split_ifs with hi
      · rw [emitCopies_noop _ _ hfull]
        exact ⟨_, rfl, rfl, rfl⟩
      · rw [emitTransition_noop _ _ hfull]
        refine ⟨_, rfl, ?_, ?_⟩
        · show (emitCopies ctx.budget (resize_image raw ctx.tw ctx.th) ctx.fpi s).count
            = s.count
          rw [emitCopies_noop _ _ hfull]
        · show (emitCopies ctx.budget (resize_image raw ctx.tw ctx.th) ctx.fpi s).frames
            = s.frames
          rw [emitCopies_noop _ _ hfull]

/-! ### Builder completion: well-formed runs finish and keep the canvas -/

/-- Every frame written so far has the canvas resolution. -/
def FramesWF (th tw : ℕ) (s : BState) : Prop := ∀ g ∈ s.frames, WF g th tw

/-- The running invariant after the first image has been processed:
accounting holds, all written frames have the canvas resolution, and the
held `prev_image` is a canvas-resolution frame. -/
def GoodRun (budget th tw : ℕ) (s : BState) : Prop :=
  Acct budget s ∧ FramesWF th tw s ∧ ∃ f, s.prev = some f ∧ WF f th tw

theorem targetH_pos {w : ℕ} (hw : 2 ≤ w) : 0 < targetH w := by
  unfold targetH
  rw [pyTrunc_of_nonneg (by positivity)]
  have h1 : (1 : ℚ) ≤ (w : ℚ) * 9 / 16 := by
    have h2 : (2 : ℚ) ≤ (w : ℚ) := by exact_mod_cast hw
    linarith
  have h3 : (1 : ℤ) ≤ ⌊(w : ℚ) * 9 / 16⌋ := Int.le_floor.mpr (by push_cast; linarith)
  omega

theorem emitCopies_frames {budget th tw : ℕ} {frame : Frame} (hf : WF frame th tw) :
    ∀ (k : ℕ) (s : BState), FramesWF th tw s →
      FramesWF th tw (emitCopies budget frame k s) ∧
      (emitCopies budget frame k s).prev = s.prev := by
  intro k
  induction k with
  | zero =>
    intro s hs
    exact ⟨hs, rfl⟩
  | succ n ih =>
    intro s hs
    simp only [emitCopies]
    split_ifs with hc
    · refine ih ⟨s.prev, s.count + 1, s.frames ++ [frame]⟩ ?_
      intro g hg
      rcases List.mem_append.mp hg with hg | hg
      · exact hs g hg
      · rw [List.mem_singleton.mp hg]
        exact hf
    · exact ih s hs

theorem emitTransition_run {budget tf th tw : ℕ} {curr pv : Frame} {kind : ℕ}
    (hcurr : WF curr th tw) (hpv : WF pv th tw) (hth : 0 < th) :
    ∀ (js : List ℕ) (s : BState), s.prev = some pv → Acct budget s →
      FramesWF th tw s → (∀ j ∈ js, j < tf) →
      ∃ s', emitTransition budget tf curr kind js s = some s' ∧
        Acct budget s' ∧ FramesWF th tw s' ∧ s'.prev = some pv := by
  intro js
  induction js with
  | nil =>
    intro s hprev hacct hfr _
    exact ⟨s, rfl, hacct, hfr, hprev⟩
  | cons j js ih =>
    intro s hprev hacct hfr hjs
    obtain ⟨sprev, scount, sframes⟩ := s
    simp only at hprev
    subst hprev
    have hjtf : j < tf := hjs j (by simp)
    have htfq : (0 : ℚ) < (tf : ℚ) := by
      have htf : 0 < tf := by omega
      exact_mod_cast htf
    have hp0 : (0 : ℚ) ≤ (j : ℚ) / (tf : ℚ) := by positivity
    have hp1 : (j : ℚ) / (tf : ℚ) ≤ 1 := by
      rw [div_le_one htfq]
      exact_mod_cast hjtf.le
    obtain ⟨f, happ, hfwf⟩ := apply_transition_WF hpv hcurr hth hp0 hp1 kind
    simp only [emitTransition]
    split_ifs with hc
    · rw [happ]
      refine ih ⟨some pv, scount + 1, sframes ++ [f]⟩ rfl ⟨?_, ?_⟩ ?_
        (fun x hx => hjs x (by simp [hx]))
      · show scount + 1 ≤ budget
        simp only at hc
        omega
      · show (sframes ++ [f]).length = scount + 1
        simp only [Acct] at hacct
        simp [hacct.2]
      · intro g hg
        rcases List.mem_append.mp hg with hg | hg
        · exact hfr g hg
        · rw [List.mem_singleton.mp hg]
          exact hfwf
    · exact ih ⟨some pv, scount, sframes⟩ rfl hacct hfr
        (fun x hx => hjs x (by simp [hx]))

theorem buildStep_run {ctx : RunCtx} (hth : 0 < ctx.th) (htw : 0 < ctx.tw)
    {i : ℕ} (hi : i ≠ 0) (img? : Option Frame)
    (himg : ∀ raw, img? = some raw → ∃ rh rw0, WF raw rh rw0 ∧ 0 < rh ∧ 0 < rw0)
    {s : BState} (hs : GoodRun ctx.budget ctx.th ctx.tw s) :
    ∃ s', buildStep ctx i img? s = some s' ∧ GoodRun ctx.budget ctx.th ctx.tw s' := by
  obtain ⟨hacct, hfr, pv, hprev, hpv⟩ := hs
  cases img? with
  | none => exact ⟨s, rfl, hacct, hfr, pv, hprev, hpv⟩
  | some raw =>
    obtain ⟨rh, rw0, hraw, hrh, hrw0⟩ := himg raw rfl
    have hcurr : WF (resize_image raw ctx.tw ctx.th) ctx.th ctx.tw :=
      resize_image_WF raw rh rw0 ctx.tw ctx.th hraw hrh hrw0 htw hth
    simp only [buildStep]
    rw [if_neg hi]
    obtain ⟨s1, htr, hacct1, hfr1, hprev1⟩ :=
      emitTransition_run hcurr hpv hth (List.range ctx.tf) s hprev hacct hfr
        (fun j hj => List.mem_range.mp hj)
    rw [htr]
    obtain ⟨hfr2, _⟩ := emitCopies_frames hcurr ctx.fpi s1 hfr1
    exact ⟨_, rfl, emitCopies_acct _ _ hacct1, hfr2, _, rfl, hcurr⟩

theorem runImages_run {ctx : RunCtx} (hth : 0 < ctx.th) (htw : 0 < ctx.tw) :
    ∀ (rest : List (Option Frame)) (i : ℕ), i ≠ 0 → ∀ s : BState,
      GoodRun ctx.budget ctx.th ctx.tw s →
      (∀ img ∈ rest, ∀ raw, img = some raw →
        ∃ rh rw0, WF raw rh rw0 ∧ 0 < rh ∧ 0 < rw0) →
      ∃ s', runImages ctx i s rest = some s' ∧ GoodRun ctx.budget ctx.th ctx.tw s' := by
  intro rest
  induction rest with
  | nil =>
    intro i _ s hs _
    exact ⟨s, rfl, hs⟩
  | cons img? rest ih =>
    intro i hi s hs hrest
    obtain ⟨s1, hstep, hs1⟩ :=
      buildStep_run hth htw hi img? (fun raw hr => hrest img? (by simp) raw hr) hs
    simp only [runImages]
    rw [hstep]
    obtain ⟨s', hrun, hs'⟩ := ih (i + 1) (by omega) s1 hs1
      (fun img hm raw hr => hrest img (by simp [hm]) raw hr)
    exact ⟨s', hrun, hs'⟩

theorem runFull (ctx : RunCtx) (hth : 0 < ctx.th) (htw : 0 < ctx.tw)
    {img0 : Frame} {h0 w0 : ℕ} (h0wf : WF img0 h0 w0) (hh0 : 0 < h0) (hw0 : 0 < w0)
    (rest : List (Option Frame))
    (hrest : ∀ img ∈ rest, ∀ raw, img = some raw →
      ∃ rh rw0, WF raw rh rw0 ∧ 0 < rh ∧ 0 < rw0) :
    ∃ s', runImages ctx 0 ⟨none, 0, []⟩ (some img0 :: rest) = some s' ∧
      GoodRun ctx.budget ctx.th ctx.tw s' := by
  have hcurr : WF (resize_image img0 ctx.tw ctx.th) ctx.th ctx.tw :=
    resize_image_WF img0 h0 w0 ctx.tw ctx.th h0wf hh0 hw0 htw hth
  have hs1 : GoodRun ctx.budget ctx.th ctx.tw
      { emitCopies ctx.budget (resize_image img0 ctx.tw ctx.th) ctx.fpi ⟨none, 0, []⟩
        with prev := some (resize_image img0 ctx.tw ctx.th) } := by
    obtain ⟨hfr, _⟩ := emitCopies_frames hcurr ctx.fpi ⟨none, 0, []⟩
      (by intro g hg; simp at hg)
    have hacct : Acct ctx.budget
        (emitCopies ctx.budget (resize_image img0 ctx.tw ctx.th) ctx.fpi ⟨none, 0, []⟩) :=
      emitCopies_acct _ _ ⟨Nat.zero_le _, rfl⟩
    exact ⟨⟨hacct.1, hacct.2⟩, hfr, _, rfl, hcurr⟩
  simp only [runImages, buildStep, reduceIte]
  obtain ⟨s', hrun, hgood⟩ := runImages_run hth htw rest 1 (by omega) _ hs1 hrest
  exact ⟨s', hrun, hgood⟩

theorem create_slideshow_completes {cfg : Config} {img0 : Frame}
    {rest : List (Option Frame)} {h0 w0 : ℕ} (h0wf : WF img0 h0 w0) (hh0 : 0 < h0)
    (hw0 : 2 ≤ w0)
    (hrem : 0 < remainingTime cfg.videoDuration cfg.transitionDuration
      (rest.length + 1))
    (hrest : ∀ img ∈ rest, ∀ raw, img = some raw →
      ∃ rh rw0, WF raw rh rw0 ∧ 0 < rh ∧ 0 < rw0) :
    ∃ fs, create_slideshow cfg (some img0 :: rest) = Except.ok fs ∧
      ∀ f ∈ fs, WF f (targetH w0) w0 := by
  have htw' : (buildCtx cfg (rest.length + 1) img0).tw = w0 := by
    simp [buildCtx, h0wf.width hh0]
  have hth' : (buildCtx cfg (rest.length + 1) img0).th = targetH w0 := by
    simp [buildCtx, h0wf.width hh0]
  simp only [create_slideshow, List.length_cons, List.head?_cons]
  rw [if_neg (not_le.mpr hrem), if_neg (by omega : ¬ rest.length + 1 = 0)]
  obtain ⟨s', hrun, hgood⟩ := runFull (buildCtx cfg (rest.length + 1) img0)
    (by rw [hth']; exact targetH_pos hw0) (by rw [htw']; omega)
    h0wf hh0 (by omega) rest hrest
  rw [hrun]
  refine ⟨s'.frames, rfl, ?_⟩
  intro f hf
  have hwf := hgood.2.1 f hf
  rw [hth', htw'] at hwf
  exact hwf

/-! ### Concrete example inputs for the witnesses -/

def exA : Frame := [[(7, 7, 7), (7, 7, 7)]]

def exB : Frame := [[(9, 9, 9), (9, 9, 9)]]

def exCfg : Config := ⟨1, 2, 1, fun _ => 0⟩

def exCfg3 : Config := ⟨1, 10, 1, fun _ => 0⟩

def exCfgHalf : Config := ⟨1/2, 10, 1, fun _ => 0⟩

theorem total_frames_within_budget_witness :
    ((([[[((7, 7, 7) : Pix), ((7, 7, 7) : Pix)]]] : List Frame).length : ℤ) ≤
      ⌊exCfg.videoDuration * (exCfg.frameRate : ℚ)⌋) ∧
    (∃ s', buildStep ⟨2, 3, 1, 2, 1, fun _ => 0⟩ 4 (some exB) ⟨some exA, 2, [exA, exA]⟩
        = some s' ∧ s'.count = 2 ∧ s'.frames = [exA, exA]) :=
  ⟨(total_frames_within_budget exCfg (by norm_num [exCfg])).1 [some exA, some exB] _
      (by with_unfolding_all rfl),
    (total_frames_within_budget exCfg (by norm_num [exCfg])).2 ⟨2, 3, 1, 2, 1, fun _ => 0⟩ 4
      (some exB) ⟨some exA, 2, [exA, exA]⟩ (by decide)⟩

/-! ### C7: decode failures — corrected

A decode failure of a non-first image is skip-with-warning (the loop state
is completely unchanged and the run finishes), but a decode failure of the
FIRST image is fatal: line 310-312 raises ValueError before any frame is
written, because the canvas resolution cannot be established. -/

/-- C7 (counterexample): with the first of three images unreadable the
build aborts with the first-image ValueError instead of continuing — a
decode failure of the first image is fatal, contrary to the claim. -/
theorem first_image_decode_failure_fatal :
    create_slideshow exCfg3 [Option.none, some exA, some exA] =
      Except.error BuildError.firstImageLoad := by
  with_unfolding_all rfl

/-- C7 (amended): a decode failure of any non-first image leaves the loop
state untouched (skip with a warning, `prev_image` not advanced, no frame
consumed) and the run continues to completion; only the first image's
decode failure is fatal. -/
theorem decode_failure_nonfatal (cfg : Config) (img0 : Frame)
    (rest : List (Option Frame)) {h0 w0 : ℕ} (h0wf : WF img0 h0 w0) (hh0 : 0 < h0)
    (hw0 : 2 ≤ w0)
    (hrem : 0 < remainingTime cfg.videoDuration cfg.transitionDuration
      (rest.length + 1))
    (hrest : ∀ img ∈ rest, ∀ raw, img = some raw →
      ∃ rh rw0, WF raw rh rw0 ∧ 0 < rh ∧ 0 < rw0) :
    (∀ (ctx : RunCtx) (i : ℕ) (s : BState), buildStep ctx i none s = some s) ∧
    ∃ fs, create_slideshow cfg (some img0 :: rest) = Except.ok fs := by
  refine ⟨fun _ _ _ => rfl, ?_⟩
  obtain ⟨fs, hok, _⟩ := create_slideshow_completes h0wf hh0 hw0 hrem hrest
  exact ⟨fs, hok⟩

theorem decode_failure_nonfatal_witness :
    (buildStep ⟨2, 3, 1, 2, 1, fun _ => 0⟩ 4 none ⟨some exA, 2, [exA]⟩ =
      some ⟨some exA, 2, [exA]⟩) ∧
    ∃ fs, create_slideshow exCfg3 [some exA, Option.none, some exA] = Except.ok fs := by
  have h := decode_failure_nonfatal exCfg3 exA [Option.none, some exA]
    (by decide : WF exA 1 2) (by decide) (by decide)
    (by norm_num [remainingTime, exCfg3])
    (by
      intro img hm raw hr
      simp only [List.mem_cons, List.mem_singleton, List.not_mem_nil, or_false] at hm
      rcases hm with rfl | rfl
      · exact absurd hr (by simp)
      · injection hr with hr
        subst hr
        exact ⟨1, 2, by decide, by decide, by decide⟩)
  exact ⟨h.1 ⟨2, 3, 1, 2, 1, fun _ => 0⟩ 4 ⟨some exA, 2, [exA]⟩, h.2⟩

/-! ### C9: the canvas resolution invariant -/

/-- C9: the canvas resolution `(target_w, target_h) = (w0, targetH w0)` is
derived once from the first loaded image before any frame is produced;
every frame a completed build writes to the sink has exactly that
resolution, and `normalize` returns a frame of exactly the target
dimensions in both its direct-resize and resize-then-center-crop
branches. -/
theorem canvas_resolution_fixed (cfg : Config) (img0 : Frame)
    (rest : List (Option Frame)) {h0 w0 : ℕ} (h0wf : WF img0 h0 w0) (hh0 : 0 < h0)
    (hw0 : 2 ≤ w0)
    (hrem : 0 < remainingTime cfg.videoDuration cfg.transitionDuration
      (rest.length + 1))
    (hrest : ∀ img ∈ rest, ∀ raw, img = some raw →
      ∃ rh rw0, WF raw rh rw0 ∧ 0 < rh ∧ 0 < rw0) :
    (∀ fs, create_slideshow cfg (some img0 :: rest) = Except.ok fs →
      ∀ f ∈ fs, WF f (targetH w0) w0) ∧
    (∀ (raw : Frame) (rh rw0 : ℕ), WF raw rh rw0 → 0 < rh → 0 < rw0 →
      WF (resize_image raw w0 (targetH w0)) (targetH w0) w0) := by
  constructor
  · intro fs hok f hf
    obtain ⟨fs0, hok0, hwf0⟩ := create_slideshow_completes h0wf hh0 hw0 hrem hrest
    rw [hok0] at hok
    injection hok with hok
    subst hok
    exact hwf0 f hf
  · intro raw rh rw0 hraw hrh hrw0
    exact resize_image_WF raw rh rw0 w0 (targetH w0) hraw hrh hrw0 (by omega)
      (targetH_pos hw0)

theorem canvas_resolution_fixed_witness :
    WF [[((7, 7, 7) : Pix), ((7, 7, 7) : Pix)]] (targetH 2) 2 ∧
    WF (resize_image [[((5, 5, 5) : Pix)]] 2 (targetH 2)) (targetH 2) 2 := by
  have h := canvas_resolution_fixed exCfg exA [some exB]
    (by decide : WF exA 1 2) (by decide) (by decide)
    (by norm_num [remainingTime, exCfg])
    (by
      intro img hm raw hr
      simp only [List.mem_singleton] at hm
      subst hm
      injection hr with hr
      subst hr
      exact ⟨1, 2, by decide, by decide, by decide⟩)
  refine ⟨?_, h.2 [[((5, 5, 5) : Pix)]] 1 1 (by decide) (by decide) (by decide)⟩
  exact h.1 [[[((7, 7, 7) : Pix), ((7, 7, 7) : Pix)]]] (by with_unfolding_all rfl)
    [[((7, 7, 7) : Pix), ((7, 7, 7) : Pix)]] (by simp)

/-! ### C10: zero-length transitions are safe -/

/-- C10: when `floor(transitionDuration * frameRate) = 0` the transition
loop body never runs: the boundary emits zero transition frames, the
per-frame progress quotient `j / framesPerTransition` is never formed
(the loop over `range(0)` is empty), and the build still completes
normally. -/
theorem zero_transition_frames (cfg : Config) (img0 : Frame)
    (rest : List (Option Frame)) {h0 w0 : ℕ} (h0wf : WF img0 h0 w0) (hh0 : 0 < h0)
    (hw0 : 2 ≤ w0)
    (hrem : 0 < remainingTime cfg.videoDuration cfg.transitionDuration
      (rest.length + 1))
    (hrest : ∀ img ∈ rest, ∀ raw, img = some raw →
      ∃ rh rw0, WF raw rh rw0 ∧ 0 < rh ∧ 0 < rw0)
    (htd : 0 ≤ cfg.transitionDuration)
    (htf : ⌊cfg.transitionDuration * (cfg.frameRate : ℚ)⌋ = 0) :
    (∀ (budget : ℕ) (curr : Frame) (kind : ℕ) (s : BState),
      emitTransition budget
        (Int.toNat (framesPerTransition cfg.transitionDuration cfg.frameRate)) curr kind
        (List.range (Int.toNat (framesPerTransition cfg.transitionDuration
          cfg.frameRate))) s = some s) ∧
    ∃ fs, create_slideshow cfg (some img0 :: rest) = Except.ok fs := by
  have h0' : framesPerTransition cfg.transitionDuration cfg.frameRate = 0 := by
    unfold framesPerTransition
    rw [pyTrunc_of_nonneg (mul_nonneg htd (by positivity))]
    exact htf
  constructor
  · intro budget curr kind s
    rw [h0']
    rfl
  · obtain ⟨fs, hok, _⟩ := create_slideshow_completes h0wf hh0 hw0 hrem hrest
    exact ⟨fs, hok⟩

theorem zero_transition_frames_witness :
    (emitTransition 5
        (Int.toNat (framesPerTransition exCfgHalf.transitionDuration
          exCfgHalf.frameRate)) exA 0
        (List.range (Int.toNat (framesPerTransition exCfgHalf.transitionDuration
          exCfgHalf.frameRate))) ⟨none, 0, []⟩ = some ⟨none, 0, []⟩) ∧
    ∃ fs, create_slideshow exCfgHalf [some exA, some exB] = Except.ok fs := by
  have h := zero_transition_frames exCfgHalf exA [some exB]
    (by decide : WF exA 1 2) (by decide) (by decide)
    (by norm_num [remainingTime, exCfgHalf])
    (by
      intro img hm raw hr
      simp only [List.mem_singleton] at hm
      subst hm
      injection hr with hr
      subst hr
      exact ⟨1, 2, by decide, by decide, by decide⟩)
    (by norm_num [exCfgHalf])
    (by norm_num [exCfgHalf])
  exact ⟨h.1 5 exA 0 ⟨none, 0, []⟩, h.2⟩

end AutoSlideshow
